import Mathlib

/-!
Shallow embedding of familytreemaker.py (Adrien Vergé, 2013).

Conventions of the embedding:
- Python strings are `Str := List Char`; every text helper (strip, split, ...)
  is translated explicitly so concrete runs reduce in the kernel.
- Python dicts (insertion ordered, overwrite in place) are association lists
  with `dictInsert` / `dictGet?` / `dictUpdate`.
- Python aliasing of the mutable `parents` lists (`p.parents = h.parents` in
  `Family.populate`) is modelled with a store of list cells (`Family.cells`);
  a `Person.parents` field and a `Household.parents` field hold cell indices,
  so sharing and later mutation are represented faithfully.
- `random.randint(100, 999)` is modelled by an oracle `Nat → Nat` indexed by
  a draw counter; theorems about the suffix quantify over the drawn value
  with the bounds 100 ≤ r ≤ 999 of `randint`.
- `print` output of the emitter is a trace of `Out` events, one constructor
  per print statement, carrying exactly the format arguments of that print.
- Exceptions (`ValueError` from tuple unpacking, the explicit `raise` in
  `display_generation`) are `Option` / abort outcomes.
-/

abbrev Str := List Char

def chars (s : String) : Str := s.toList

/-- Attribute values: `k=v` gives a string, a bare flag gives Python `True`. -/
inductive AttrVal where
  | str (s : Str)
  | flag
  deriving DecidableEq, Repr

instance : Inhabited AttrVal := ⟨AttrVal.str []⟩

/-- Rendering used where Python interpolates a value with `%s`. -/
def pyStr : AttrVal → Str
  | AttrVal.str s => s
  | AttrVal.flag => chars "True"

/-- Whitespace set of Python `str.strip` (ASCII part). -/
def isPySpace (c : Char) : Bool :=
  c == ' ' || c == '\t' || c == '\n' || c == '\r' || c == '\x0b' || c == '\x0c'

def pyLstrip (s : Str) : Str := s.dropWhile isPySpace

def pyRstrip (s : Str) : Str := (s.reverse.dropWhile isPySpace).reverse

def pyStrip (s : Str) : Str := pyRstrip (pyLstrip s)

/-- Python `s.split(c)`: keeps empty pieces, result is never empty. -/
def splitChar (c : Char) : Str → List Str
  | [] => [[]]
  | a :: rest =>
    match splitChar c rest with
    | [] => [[]]
    | s :: ss => if a == c then [] :: s :: ss else (a :: s) :: ss

section Dict

variable {α β : Type} [DecidableEq α]

/-- Python `d[k] = v`: overwrite in place, else append (insertion order kept). -/
def dictInsert : List (α × β) → α → β → List (α × β)
  | [], k, v => [(k, v)]
  | (k0, v0) :: rest, k, v =>
    if k0 = k then (k0, v) :: rest else (k0, v0) :: dictInsert rest k v

/-- Python `d.get(k)` / `k in d`. -/
def dictGet? : List (α × β) → α → Option β
  | [], _ => none
  | (k0, v0) :: rest, k => if k0 = k then some v0 else dictGet? rest k

def dictKeys (d : List (α × β)) : List α := d.map Prod.fst

/-- Python `old.update(new)`: insert every pair of `new`, in order. -/
def dictUpdate (old new : List (α × β)) : List (α × β) :=
  new.foldl (fun d kv => dictInsert d kv.1 kv.2) old

end Dict


def digitChar : Nat → Char
  | 0 => '0' | 1 => '1' | 2 => '2' | 3 => '3' | 4 => '4'
  | 5 => '5' | 6 => '6' | 7 => '7' | 8 => '8' | 9 => '9'
  | _ => '?'

def natDigitsAux : Nat → Nat → Str
  | 0, _ => []
  | fuel + 1, n =>
    if n < 10 then [digitChar n] else natDigitsAux fuel (n / 10) ++ [digitChar (n % 10)]

/-- Decimal rendering `str(n)` for naturals. -/
def natDigits (n : Nat) : Str := natDigitsAux (n + 1) n

/-- Class `Person` of the source. `parents` is the index of the cell the
Python attribute `self.parents` currently references (a fresh empty list at
`__init__`, rebound to the household parents list for child lines). -/
structure Person where
  name : Str
  attr : List (Str × AttrVal)
  id : AttrVal
  parents : Nat
  households : List Nat
  follow_kids : Bool
  deriving DecidableEq, Repr

def defaultPerson : Person :=
  { name := [], attr := [], id := AttrVal.str [], parents := 0,
    households := [], follow_kids := true }

instance : Inhabited Person := ⟨defaultPerson⟩

def idKey : Str := chars "id"

def uniqueKey : Str := chars "unique"

/-- Character class `[0-9A-Za-z]` of the `re.sub` in `Person.__init__`. -/
def isIdChar (c : Char) : Bool :=
  ('0' ≤ c && c ≤ '9') || ('A' ≤ c && c ≤ 'Z') || ('a' ≤ c && c ≤ 'z')

/-- Translation of `re.sub('[^0-9A-Za-z]', '', name)`. -/
def normalizeId (s : Str) : Str := s.filter isIdChar

/-- Attribute loop of `Person.__init__`: each token is `k=v` or a bare flag;
`a.split('=')` with more than one `=` raised `ValueError` (here: `none`). -/
def parseAttrs : List (Str × AttrVal) → List Str → Option (List (Str × AttrVal))
  | acc, [] => some acc
  | acc, t :: ts =>
    if t.contains '=' then
      match splitChar '=' t with
      | [k, v] => parseAttrs (dictInsert acc k (AttrVal.str v)) ts
      | _ => none
    else parseAttrs (dictInsert acc t AttrVal.flag) ts

/-- Tail of `Person.__init__`: the id computation and field initialisation.
`r` is the value drawn by `random.randint(100, 999)` when it is consulted,
`cell` is the address of the fresh `self.parents = []` list. -/
def mkPerson (r : Nat) (cell : Nat) (name : Str) (attr : List (Str × AttrVal)) : Person :=
  { name := name
    attr := attr
    id :=
      match dictGet? attr idKey with
      | some v => v
      | none =>
        AttrVal.str (normalizeId name ++
          (if (dictGet? attr uniqueKey).isSome then natDigits r else []))
    parents := cell
    households := []
    follow_kids := true }

/-- `Person.__init__(desc)`. `none` models the `ValueError` paths of the
two tuple unpackings (`desc[0:-1].split('(')` and `a.split('=')`). -/
def parsePerson (r : Nat) (cell : Nat) (desc0 : Str) : Option Person :=
  let desc := pyStrip desc0
  if desc.contains '(' && desc.contains ')' then
    match splitChar '(' desc.dropLast with
    | [n, a] =>
      match parseAttrs [] ((splitChar ',' a).map pyStrip) with
      | some attr => some (mkPerson r cell (pyStrip n) attr)
      | none => none
    | _ => none
  else
    some (mkPerson r cell desc [])

/-- Class `Household`: `parents` is the cell index of the shared parents
list, `kids` the list of kid ids, `id` 0 until registration. -/
structure Household where
  parents : Nat
  kids : List AttrVal
  id : Nat
  deriving DecidableEq, Repr

instance : Inhabited Household := ⟨{ parents := 0, kids := [], id := 0 }⟩

/-- Class `Family`: `everybody` is the id-indexed person dict, `households`
the registration list, `cells` the store of mutable parents lists, and
`errors` counts the `print('error: number of parents != 2')` reports. -/
structure Family where
  everybody : List (AttrVal × Person)
  households : List Household
  cells : List (List AttrVal)
  errors : Nat
  deriving DecidableEq, Repr

def familyInit : Family := { everybody := [], households := [], cells := [], errors := 0 }

def cellGet (fam : Family) (i : Nat) : List AttrVal := fam.cells.getD i []

/-- Allocation of a fresh empty list cell. -/
def newList (fam : Family) : Family × Nat :=
  ({ fam with cells := fam.cells ++ [[]] }, fam.cells.length)

/-- `Household.__init__`. -/
def newHousehold (fam : Family) : Family × Household :=
  let p := newList fam
  (p.1, { parents := p.2, kids := [], id := 0 })

/-- `Household.isempty`. -/
def Household.isempty (h : Household) (fam : Family) : Bool :=
  (cellGet fam h.parents).isEmpty && h.kids.isEmpty

def personOf (fam : Family) (pid : AttrVal) : Person :=
  (dictGet? fam.everybody pid).getD defaultPerson

def householdOf (fam : Family) (i : Nat) : Household :=
  fam.households.getD i default

/-- Body of `Family.add_person` after the parse: merge the attributes into
an existing entry or insert the new person; the returned id stands for the
person object the source returns (`self.everybody[key]`). -/
def registerPerson (fam : Family) (p : Person) : Family × AttrVal :=
  match dictGet? fam.everybody p.id with
  | some q =>
    ({ fam with everybody := dictInsert fam.everybody p.id
                  { q with attr := dictUpdate q.attr p.attr } }, p.id)
  | none =>
    ({ fam with everybody := dictInsert fam.everybody p.id p }, p.id)

/-- `Family.add_person`: construct the `Person` (allocating its fresh
`self.parents = []` list), then register it. -/
def add_person (fam : Family) (r : Nat) (desc : Str) : Option (Family × AttrVal) :=
  match parsePerson r fam.cells.length desc with
  | none => none
  | some p => some (registerPerson { fam with cells := fam.cells ++ [[]] } p)

/-- Body of the `for p in h.parents` loop of `Family.add_household`:
append the freshly registered household (index `hid`, compared by identity,
i.e. by registration index) to the parent person `pid` unless already
present (`if not h in p.households`). -/
def addHouseholdStep (hid : Nat) (f : Family) (pid : AttrVal) : Family :=
  match dictGet? f.everybody pid with
  | some p =>
    if hid ∈ p.households then f
    else { f with everybody := dictInsert f.everybody pid
                    { p with households := p.households ++ [hid] } }
  | none => f

/-- `Family.add_household`: reject (report, drop) unless exactly 2 parents;
otherwise assign the insertion index as id, append, and run the parent
loop. -/
def add_household (fam : Family) (h : Household) : Family :=
  if (cellGet fam h.parents).length ≠ 2 then
    { fam with errors := fam.errors + 1 }
  else
    let hid := fam.households.length
    let fam1 := { fam with households := fam.households ++ [{ h with id := hid }] }
    (cellGet fam1 h.parents).foldl (addHouseholdStep hid) fam1

/-- State of the `Family.populate` loop: the registry, the current household
accumulator, and the position in the random-draw oracle. -/
structure PState where
  fam : Family
  h : Household
  pos : Nat
  deriving DecidableEq, Repr

/-- Rebinding `p.parents = h.parents` (assignment of the list reference). -/
def setParents (fam : Family) (pid : AttrVal) (cell : Nat) : Family :=
  match dictGet? fam.everybody pid with
  | some p => { fam with everybody := dictInsert fam.everybody pid { p with parents := cell } }
  | none => fam

/-- Mutation `h.parents.append(p)` on the shared cell. -/
def cellAppend (fam : Family) (i : Nat) (v : AttrVal) : Family :=
  { fam with cells := fam.cells.set i (cellGet fam i ++ [v]) }

/-- One line of the `Family.populate` loop body (after the EOF test):
rstrip, blank-line finalisation, comment skip, child line, parent line. -/
def populateStep (rand : Nat → Nat) (st : PState) (line0 : Str) : Option PState :=
  let line := pyRstrip line0
  if line = [] then
    let fam := if !(st.h.isempty st.fam) then add_household st.fam st.h else st.fam
    let p := newHousehold fam
    some { st with fam := p.1, h := p.2 }
  else if line.headD ' ' == '#' then
    some st
  else if line.headD ' ' == '\t' then
    match add_person st.fam (rand st.pos) (line.drop 1) with
    | none => none
    | some fp =>
      let fam := setParents fp.1 fp.2 st.h.parents
      some { fam := fam, h := { st.h with kids := st.h.kids ++ [fp.2] }, pos := st.pos + 1 }
  else
    match add_person st.fam (rand st.pos) line with
    | none => none
    | some fp =>
      some { fam := cellAppend fp.1 st.h.parents fp.2, h := st.h, pos := st.pos + 1 }

def populateGo (rand : Nat → Nat) : PState → List Str → Option Family
  | st, [] => some (if !(st.h.isempty st.fam) then add_household st.fam st.h else st.fam)
  | st, l :: ls =>
    match populateStep rand st l with
    | none => none
    | some st1 => populateGo rand st1 ls

/-- `Family.populate`: the input file as a list of lines (without the
trailing newline that `readline` returns); `none` models an uncaught
`ValueError` escaping from `Person.__init__`. -/
def populate (rand : Nat → Nat) (fam0 : Family) (lines : List Str) : Option Family :=
  let p := newHousehold fam0
  populateGo rand { fam := p.1, h := p.2, pos := 0 } lines

/-- `Family.next_generation`. -/
def next_generation (fam : Family) (gen : List AttrVal) : List AttrVal :=
  gen.foldl (fun acc pid =>
    let p := personOf fam pid
    if !p.follow_kids then acc
    else p.households.foldl (fun acc2 hi => acc2 ++ (householdOf fam hi).kids) acc) []

/-- Iterated generations starting from `[start]`, as in
`output_descending_tree` (`gen = [ancestor]`, then `next_generation`). -/
def generations (fam : Family) (start : AttrVal) : Nat → List AttrVal
  | 0 => [start]
  | n + 1 => next_generation fam (generations fam start n)

/-- Emitted output: one constructor per print statement of the emitter,
carrying exactly the computed format arguments of that print. -/
inductive Out where
  | raw (s : Str)
  | personNode (id : AttrVal) (label : Str) (fillcolor : Str)
  | rankOpen
  | rankClose
  | invisEdge (a b : AttrVal)
  | marriageEdge (a : AttrVal) (hid : Nat) (b : AttrVal)
  | hNode (hid : Nat)
  | slotGlue (prevHid prevIdx hid : Nat)
  | slotChain (hid len : Nat)
  | slotNode (hid i : Nat)
  | centerEdge (hid i : Nat)
  | kidEdge (hid i : Nat) (kid : AttrVal)
  deriving DecidableEq, Repr

/-- Label construction of `Person.graphviz` (the `label` variable). -/
def Person.graphvizLabel (p : Person) : Str :=
  let label := p.name
  let label :=
    match dictGet? p.attr (chars "surname") with
    | some v => label ++ chars "\\n« " ++ pyStr v ++ chars "»"
    | none => label
  let label :=
    match dictGet? p.attr (chars "birthday") with
    | some v =>
      let label := label ++ chars "\\n" ++ pyStr v
      (match dictGet? p.attr (chars "deathday") with
       | some w => label ++ chars " † " ++ pyStr w
       | none => label)
    | none =>
      (match dictGet? p.attr (chars "deathday") with
       | some w => label ++ chars "\\n† " ++ pyStr w
       | none => label)
  match dictGet? p.attr (chars "notes") with
  | some v => label ++ chars "\\n" ++ pyStr v
  | none => label

/-- Fill colour of `Person.graphviz` (the and/or chain on `F` / `M`). -/
def Person.graphvizFill (p : Person) : Str :=
  if (dictGet? p.attr (chars "F")).isSome then chars "bisque"
  else if (dictGet? p.attr (chars "M")).isSome then chars "azure2"
  else chars "white"

/-- Static method `Family.get_spouse(household, person)`. -/
def get_spouse (fam : Family) (h : Household) (pid : AttrVal) : AttrVal :=
  let ps := cellGet fam h.parents
  if ps.getD 0 default == pid then ps.getD 1 default else ps.getD 0 default

/-- Message of the `raise Exception` for more than 2 households. -/
def spouseErr (name : Str) : Str :=
  chars "Person \"" ++ name ++
    chars "\" has more than 2 spouses/husbands: drawing this is not implemented"

/-- Python truthiness of the `prev` variable of the first rank block
(`None` or an id string; `if prev:` is false for the empty string). -/
def pyTruthyId : Option AttrVal → Bool
  | none => false
  | some (AttrVal.str s) => !s.isEmpty
  | some AttrVal.flag => true

/-- First block of `display_generation` (persons and spouse edges on one
rank). Returns the emitted trace and the error message of the `raise` on a
person with more than 2 households, if hit. -/
def rank1Go (fam : Family) : List AttrVal → Option AttrVal → List Out → List Out × Option Str
  | [], _, acc => (acc ++ [Out.rankClose], none)
  | pid :: rest, prev, acc =>
    let p := personOf fam pid
    let l := p.households.length
    let acc := acc ++
      (if pyTruthyId prev then
        (if l ≤ 1 then [Out.invisEdge (prev.getD default) pid]
         else [Out.invisEdge (prev.getD default)
                  (get_spouse fam (householdOf fam (p.households.getD 0 0)) pid)])
       else [])
    if l = 0 then rank1Go fam rest (some pid) acc
    else if 2 < l then (acc, some (spouseErr p.name))
    else
      let leftEv := (List.range (l / 2)).foldl (fun a i =>
        let h := householdOf fam (p.households.getD i 0)
        let sp := get_spouse fam h pid
        a ++ [Out.marriageEdge sp h.id pid, Out.hNode h.id]) []
      let rightRes := ((List.range l).drop (l / 2)).foldl
        (fun (ap : List Out × Option AttrVal) i =>
          let h := householdOf fam (p.households.getD i 0)
          let sp := get_spouse fam h pid
          (ap.1 ++ [Out.marriageEdge pid h.id sp, Out.hNode h.id], some sp))
        (acc ++ leftEv, prev)
      rank1Go fam rest rightRes.2 rightRes.1

/-- Padded slot count of the child rank: `l += 1` when `l % 2 == 0`. -/
def fanL (c : Nat) : Nat := if c % 2 = 0 then c + 1 else c

/-- Per-household slot emission of the second block: the chained junction
row `h%d_0 -> ... -> h%d_(l-1)` then the invisible node declarations. -/
def fanSlots (hid c : Nat) : List Out :=
  Out.slotChain hid (fanL c) :: (List.range (fanL c)).map (fun i => Out.slotNode hid i)

/-- Second block of `display_generation` (child junction rows). The `prev`
chain variable holds the last emitted slot name `h%d_%d`; those names are
never empty, so `if prev:` is modelled by `Option`. -/
def rank2 (fam : Family) (gen : List AttrVal) : List Out :=
  (gen.foldl (fun ap pid =>
    (personOf fam pid).households.foldl (fun (ap : List Out × Option (Nat × Nat)) hi =>
      let h := householdOf fam hi
      if h.kids.length = 0 then ap
      else
        let acc := ap.1 ++
          (match ap.2 with
           | some pv => [Out.slotGlue pv.1 pv.2 h.id]
           | none => [])
        let l := fanL h.kids.length
        (acc ++ fanSlots h.id h.kids.length, some (h.id, l - 1))) ap)
    (([], none) : List Out × Option (Nat × Nat))).1

/-- Kid edge loop of the third block: after `i += 1`, a second `i += 1`
when `i == len(h.kids)/2` (Python float comparison, i.e. `2*i = total`). -/
def kidEdgeLoop (hid total : Nat) : List AttrVal → Nat → List Out
  | [], _ => []
  | c :: cs, i =>
    Out.kidEdge hid i c ::
      kidEdgeLoop hid total cs (if 2 * (i + 1) = total then i + 2 else i + 1)

/-- Per-household part of the third block: the single downward edge
`h%d -> h%d_%d` to slot `int(len(kids)/2)`, then the kid edges. -/
def fanEdges (hid : Nat) (kids : List AttrVal) : List Out :=
  Out.centerEdge hid (kids.length / 2) :: kidEdgeLoop hid kids.length kids 0

/-- Third block of `display_generation`. -/
def rank3 (fam : Family) (gen : List AttrVal) : List Out :=
  gen.foldl (fun acc pid =>
    (personOf fam pid).households.foldl (fun acc2 hi =>
      let h := householdOf fam hi
      if 0 < h.kids.length then acc2 ++ fanEdges h.id h.kids else acc2) acc) []

/-- `Family.display_generation`: the three blocks in order; an error in the
first block aborts before the remaining prints. -/
def display_generation (fam : Family) (gen : List AttrVal) : List Out × Option Str :=
  match rank1Go fam gen none [Out.rankOpen] with
  | (out1, some e) => (out1, some e)
  | (out1, none) =>
    (out1 ++ [Out.rankOpen] ++ rank2 fam gen ++ [Out.rankClose] ++ rank3 fam gen, none)

/-- Outcome of a run of the emission loop: normal completion, the abort of
an uncaught exception, or fuel exhaustion (the model artefact standing for
nontermination of the unbounded `while gen:` loop). -/
inductive RunExit where
  | done
  | aborted (msg : Str)
  | fuelOut
  deriving DecidableEq, Repr

def closingBrace : Str := chars "\x7d"

/-- The `while gen:` loop of `output_descending_tree`, plus the final
`print('}')` when the loop exits normally. -/
def emitLoop (fam : Family) : Nat → List AttrVal → List Out × RunExit
  | _, [] => ([Out.raw closingBrace], RunExit.done)
  | 0, _ => ([], RunExit.fuelOut)
  | fuel + 1, gen =>
    match display_generation fam gen with
    | (out, some e) => (out, RunExit.aborted e)
    | (out, none) =>
      let r := emitLoop fam fuel (next_generation fam gen)
      (out ++ r.1, r.2)

def headerStr : Str := chars "digraph \x7b\n\tnode [shape=box];\n\tedge [dir=none];\n"

/-- `Family.output_descending_tree`: header, one node declaration per person
in `everybody` order, a blank line, then the generation loop. -/
def output_descending_tree (fam : Family) (ancestor : AttrVal) (fuel : Nat) :
    List Out × RunExit :=
  let header := Out.raw headerStr ::
    fam.everybody.map (fun kv => Out.personNode kv.2.id kv.2.graphvizLabel kv.2.graphvizFill)
    ++ [Out.raw []]
  let r := emitLoop fam fuel [ancestor]
  (header ++ r.1, r.2)

/-- Kids of a person through all their households, in household then kid
order (the per-person contribution of `next_generation` when
`follow_kids` holds, and the parent-to-kid graph of the registry). -/
def kidsThroughHouseholds (fam : Family) (p : Person) : List AttrVal :=
  (p.households.map (householdOf fam)).flatMap Household.kids

/-- Parent-to-kid edge relation of the registry graph. -/
def childRel (fam : Family) (a b : AttrVal) : Prop :=
  b ∈ kidsThroughHouseholds fam (personOf fam a)

instance (fam : Family) (a b : AttrVal) : Decidable (childRel fam a b) := by
  unfold childRel; infer_instance

def rand0 : Nat → Nat := fun _ => 0

def aIdv : AttrVal := AttrVal.str (chars "A")

def bIdv : AttrVal := AttrVal.str (chars "B")

def cIdv : AttrVal := AttrVal.str (chars "C")

/-- The four-line scenario input `A`, tab-indented `C`, `B`, tab-indented
`C`, with no blank lines. -/
def linesC1 : List Str := [chars "A", chars "\tC", chars "B", chars "\tC"]

def famC1 : Family := (populate rand0 familyInit linesC1).getD familyInit

/-- Formalisation of the slot index the claim assigns to kid `j` of a
household with `c` kids: the kids take the slots in order, skipping the
reserved centre slot exactly when a padding slot was added (even `c`). -/
def claimSlot (c j : Nat) : Nat := if c % 2 = 0 ∧ c / 2 ≤ j then j + 1 else j

def isSlotNode : Out → Bool
  | Out.slotNode _ _ => true
  | _ => false

def pC6q : Person :=
  { name := chars "A", attr := [(chars "x", AttrVal.str (chars "1"))], id := aIdv,
    parents := 0, households := [], follow_kids := true }

def famC6 : Family :=
  { everybody := [(aIdv, pC6q)], households := [], cells := [[]], errors := 0 }

def pC6 : Person :=
  mkPerson 0 1 (chars "A")
    [(chars "x", AttrVal.str (chars "2")), (chars "y", AttrVal.flag)]

def hh5 : Household := { parents := 0, kids := [], id := 0 }

def famBad : Family :=
  { everybody := [], households := [], cells := [[aIdv]], errors := 0 }

def pA5 : Person :=
  { name := chars "A", attr := [], id := aIdv, parents := 1,
    households := [], follow_kids := true }

def pB5 : Person :=
  { name := chars "B", attr := [], id := bIdv, parents := 2,
    households := [], follow_kids := true }

def famTwo : Family :=
  { everybody := [(aIdv, pA5), (bIdv, pB5)], households := [],
    cells := [[aIdv, bIdv], [], []], errors := 0 }

def stW : PState :=
  { fam := { everybody := [], households := [], cells := [[]], errors := 0 },
    h := { parents := 0, kids := [], id := 0 }, pos := 0 }

def famcW : Family :=
  ((add_person stW.fam 0 (chars "C")).getD (familyInit, aIdv)).1

def fampW : Family :=
  ((add_person (setParents famcW cIdv 0) 0 (chars "A")).getD (familyInit, aIdv)).1

/-- Iterating `next_generation` from an arbitrary generation. -/
def nextIter (fam : Family) : Nat → List AttrVal → List AttrVal
  | 0, g => g
  | k + 1, g => nextIter fam k (next_generation fam g)

/-- Input with three households that all contain A, giving A three
households at emission time. -/
def linesX : List Str :=
  [chars "A", chars "B1", chars "", chars "A", chars "B2", chars "",
   chars "A", chars "B3"]

def famX : Family := (populate rand0 familyInit linesX).getD familyInit

/-- Paths in the parent-to-kid graph: `PathL r a l b` records the visited
nodes after `a` (so `l.length` is the number of steps) ending at `b`. -/
inductive PathL (r : AttrVal → AttrVal → Prop) : AttrVal → List AttrVal → AttrVal → Prop where
  | nil (a : AttrVal) : PathL r a [] a
  | snoc {a : AttrVal} {l : List AttrVal} {b c : AttrVal} :
      PathL r a l b → r b c → PathL r a (l ++ [c]) c

/-- Three-person registry `A`, `B` with one household whose kid is `C`. -/
def linesW : List Str := [chars "A", chars "B", chars "\tC"]

def famW : Family := (populate rand0 familyInit linesW).getD familyInit

def rankW : AttrVal → Nat := fun v => if v = cIdv then 0 else 1

section DictLemmas

variable {α β : Type} [DecidableEq α]

theorem dictGet?_dictInsert (d : List (α × β)) (k0 k : α) (v : β) :
    dictGet? (dictInsert d k0 v) k = if k0 = k then some v else dictGet? d k := by
  induction d with
  | nil => simp [dictInsert, dictGet?]
  | cons kv rest ih =>
    obtain ⟨k1, v1⟩ := kv
    by_cases h10 : k1 = k0
    · subst h10
      by_cases h1k : k1 = k <;> simp [dictInsert, dictGet?, h1k]
    · by_cases h1k : k1 = k
      · subst h1k
        simp [dictInsert, dictGet?, h10, Ne.symm h10]
      · simp [dictInsert, dictGet?, h10, h1k, ih]

theorem mem_dictKeys_of_get {d : List (α × β)} {k : α} {v : β}
    (h : dictGet? d k = some v) : k ∈ dictKeys d := by
  induction d with
  | nil => simp [dictGet?] at h
  | cons kv rest ih =>
    by_cases hk : kv.1 = k
    · simp [dictKeys, hk]
    · simp only [dictGet?, hk, if_false] at h
      simp [dictKeys] at ih ⊢
      exact Or.inr (ih h)

theorem mem_pairs_of_get {d : List (α × β)} {k : α} {v : β}
    (h : dictGet? d k = some v) : (k, v) ∈ d := by
  induction d with
  | nil => simp [dictGet?] at h
  | cons kv rest ih =>
    obtain ⟨a, b⟩ := kv
    by_cases hk : a = k
    · subst hk
      simp only [dictGet?, if_true] at h
      simp at h
      simp [h]
    · simp only [dictGet?, hk, if_false] at h
      exact List.mem_cons_of_mem _ (ih h)

theorem dictKeys_dictInsert_of_mem {d : List (α × β)} {k : α} (v : β)
    (h : k ∈ dictKeys d) : dictKeys (dictInsert d k v) = dictKeys d := by
  induction d with
  | nil => simp [dictKeys] at h
  | cons kv rest ih =>
    obtain ⟨a, b⟩ := kv
    by_cases hk : a = k
    · simp [dictInsert, hk, dictKeys]
    · have hcons : k ∈ a :: dictKeys rest := h
      have hrest : k ∈ dictKeys rest := by
        rcases List.mem_cons.mp hcons with h1 | h1
        · exact (hk h1.symm).elim
        · exact h1
      have hih := ih hrest
      simp only [dictInsert, hk, if_false, dictKeys, List.map_cons] at hih ⊢
      rw [hih]

theorem dictKeys_dictInsert_of_not_mem {d : List (α × β)} {k : α} (v : β)
    (h : ¬ k ∈ dictKeys d) : dictKeys (dictInsert d k v) = dictKeys d ++ [k] := by
  induction d with
  | nil => simp [dictInsert, dictKeys]
  | cons kv rest ih =>
    simp [dictKeys] at h
    push_neg at h
    have hk : ¬ kv.1 = k := fun hh => h.1 hh.symm
    simp [dictInsert, hk, dictKeys]
    exact ih (by simpa [dictKeys] using h.2)

theorem nodup_dictKeys_dictInsert {d : List (α × β)} (k : α) (v : β)
    (h : (dictKeys d).Nodup) : (dictKeys (dictInsert d k v)).Nodup := by
  by_cases hm : k ∈ dictKeys d
  · rw [dictKeys_dictInsert_of_mem v hm]; exact h
  · rw [dictKeys_dictInsert_of_not_mem v hm]
    simp [List.nodup_append, h, hm]

theorem dictGet?_dictUpdate (old new : List (α × β))
    (hnd : (dictKeys new).Nodup) (k : α) :
    dictGet? (dictUpdate old new) k = (dictGet? new k).or (dictGet? old k) := by
  induction new generalizing old with
  | nil => simp [dictUpdate, dictGet?]
  | cons kv rest ih =>
    obtain ⟨k0, v0⟩ := kv
    have hcons : k0 ∉ dictKeys rest ∧ (dictKeys rest).Nodup := by
      simpa [dictKeys, List.nodup_cons] using hnd
    have hnd0 : (dictKeys rest).Nodup := hcons.2
    have hk0 : k0 ∉ dictKeys rest := hcons.1
    have hfold : dictUpdate old ((k0, v0) :: rest) = dictUpdate (dictInsert old k0 v0) rest := by
      simp [dictUpdate]
    rw [hfold, ih _ hnd0]
    by_cases hk : k0 = k
    · subst hk
      have : dictGet? rest k0 = none := by
        cases hr : dictGet? rest k0 with
        | none => rfl
        | some w => exact (hk0 (mem_dictKeys_of_get hr)).elim
      simp [dictGet?, this, dictGet?_dictInsert]
    · simp [dictGet?, hk, dictGet?_dictInsert]

end DictLemmas


section ListCellLemmas

variable {γ : Type}

theorem getD_append_left (l l2 : List γ) (i : Nat) (d : γ) (h : i < l.length) :
    (l ++ l2).getD i d = l.getD i d := by
  induction l generalizing i with
  | nil => simp at h
  | cons a rest ih =>
    cases i with
    | zero => simp
    | succ j => simpa using ih j (by simpa using h)

theorem getD_set_self (l : List γ) (i : Nat) (x d : γ) (h : i < l.length) :
    (l.set i x).getD i d = x := by
  induction l generalizing i with
  | nil => simp at h
  | cons a rest ih =>
    cases i with
    | zero => simp
    | succ j => simpa using ih j (by simpa using h)

end ListCellLemmas


theorem parseAttrs_nodup :
    ∀ (ts : List Str) (acc : List (Str × AttrVal)), (dictKeys acc).Nodup →
      ∀ res, parseAttrs acc ts = some res → (dictKeys res).Nodup := by
  intro ts
  induction ts with
  | nil =>
    intro acc hacc res hres
    simp [parseAttrs] at hres
    exact hres ▸ hacc
  | cons t rest ih =>
    intro acc hacc res hres
    by_cases hct : t.contains '='
    · simp only [parseAttrs, hct, if_true] at hres
      cases hsp : splitChar '=' t with
      | nil => rw [hsp] at hres; exact absurd hres (by simp)
      | cons x xs =>
        cases xs with
        | nil => rw [hsp] at hres; exact absurd hres (by simp)
        | cons y ys =>
          cases ys with
          | nil =>
            rw [hsp] at hres
            exact ih _ (nodup_dictKeys_dictInsert x (AttrVal.str y) hacc) res hres
          | cons z zs => rw [hsp] at hres; exact absurd hres (by simp)
    · simp only [parseAttrs, hct, if_false] at hres
      exact ih _ (nodup_dictKeys_dictInsert t AttrVal.flag hacc) res hres

/-- Inversion of a successful parse: the person is `mkPerson` of some name
and attribute dict with nodup keys. -/
theorem parsePerson_inv {r cell : Nat} {desc : Str} {p : Person}
    (h : parsePerson r cell desc = some p) :
    ∃ nm at0, p = mkPerson r cell nm at0 ∧ (dictKeys at0).Nodup := by
  unfold parsePerson at h
  by_cases hpar : (pyStrip desc).contains '(' && (pyStrip desc).contains ')'
  · simp only [hpar, if_true] at h
    cases hsp : splitChar '(' (pyStrip desc).dropLast with
    | nil => rw [hsp] at h; exact absurd h (by simp)
    | cons x xs =>
      cases xs with
      | nil => rw [hsp] at h; exact absurd h (by simp)
      | cons y ys =>
        cases ys with
        | nil =>
          rw [hsp] at h
          have h2 : (match parseAttrs [] ((splitChar ',' y).map pyStrip) with
              | some attr => some (mkPerson r cell (pyStrip x) attr)
              | none => none) = some p := h
          cases hat : parseAttrs [] ((splitChar ',' y).map pyStrip) with
          | none => rw [hat] at h2; exact absurd h2 (by simp)
          | some at0 =>
            rw [hat] at h2
            simp at h2
            exact ⟨pyStrip x, at0, h2.symm,
                   parseAttrs_nodup _ [] (by simp [dictKeys]) at0 hat⟩
        | cons z zs => rw [hsp] at h; exact absurd h (by simp)
  · simp only [hpar, if_false] at h
    simp at h
    exact ⟨pyStrip desc, [], h.symm, by simp [dictKeys]⟩

/-- Inner loop of `next_generation`: appending every household's kids. -/
theorem households_foldl_kids (fam : Family) (hs : List Nat) (acc : List AttrVal) :
    hs.foldl (fun acc2 hi => acc2 ++ (householdOf fam hi).kids) acc
      = acc ++ (hs.map (householdOf fam)).flatMap Household.kids := by
  induction hs generalizing acc with
  | nil => simp
  | cons h0 rest ih =>
    simp only [List.foldl_cons, List.map_cons, List.flatMap_cons]
    rw [ih, List.append_assoc]

/-- Declarative characterisation of `next_generation`: the concatenation,
over the generation in order, of each followed person's households' kids. -/
theorem next_generation_eq (fam : Family) (gen : List AttrVal) :
    next_generation fam gen
      = gen.flatMap (fun pid =>
          if (personOf fam pid).follow_kids then
            kidsThroughHouseholds fam (personOf fam pid)
          else []) := by
  suffices hgen : ∀ acc, gen.foldl (fun acc pid =>
      let p := personOf fam pid
      if !p.follow_kids then acc
      else p.households.foldl (fun acc2 hi => acc2 ++ (householdOf fam hi).kids) acc) acc
      = acc ++ gen.flatMap (fun pid =>
          if (personOf fam pid).follow_kids then
            kidsThroughHouseholds fam (personOf fam pid)
          else []) by
    simpa [next_generation] using hgen []
  induction gen with
  | nil => intro acc; simp
  | cons pid rest ih =>
    intro acc
    simp only [List.foldl_cons, List.flatMap_cons]
    cases hf : (personOf fam pid).follow_kids with
    | false =>
      simp only [hf, Bool.not_false, if_true, if_false]
      rw [ih acc]
      simp
    | true =>
      simp only [hf, Bool.not_true, if_false, if_true]
      rw [households_foldl_kids, ih]
      simp [kidsThroughHouseholds, List.append_assoc]

/-- Membership in the next generation comes from a parent in the current
generation via the parent-to-kid relation. -/
theorem mem_next_generation {fam : Family} {gen : List AttrVal} {q : AttrVal}
    (h : q ∈ next_generation fam gen) : ∃ p ∈ gen, childRel fam p q := by
  rw [next_generation_eq] at h
  rcases List.mem_flatMap.mp h with ⟨p, hp, hq⟩
  refine ⟨p, hp, ?_⟩
  by_cases hf : (personOf fam p).follow_kids
  · rw [if_pos hf] at hq; exact hq
  · rw [if_neg hf] at hq; exact absurd hq (by simp)

set_option maxRecDepth 10000 in
theorem natDigits_len3 (r : Nat) (h1 : 100 ≤ r) (h2 : r ≤ 999) :
    (natDigits r).length = 3 := by
  have hb : ∀ n, n < 1000 → 100 ≤ n → (natDigits n).length = 3 := by decide
  exact hb r (by omega) h1

/-- C1: the claim asserts that this input is rejected as two single-parent
households (two MalformedHousehold reports) and that C ends with no
household membership. On the code it is false: with no blank line, `B` is
appended to the same current household, which ends with the two parents
`A`, `B` and kids `[C, C]` and is accepted, so nothing is reported and C
has parents `[A, B]`. -/
theorem C1_counterexample :
    ¬ (famC1.errors = 2
        ∧ cellGet famC1 (personOf famC1 cIdv).parents = []
        ∧ ∀ h ∈ famC1.households, ¬ cIdv ∈ h.kids) := by
  decide

/-- C1 amended: for the input `A`, tab-indented `C`, `B`, tab-indented `C`
(no blank lines), ingestion reports no malformed household at all; it
registers exactly one household, with parents `A`, `B` and kid list
`[C, C]`, and person C's parents back-reference resolves to `[A, B]`. -/
theorem C1_amended :
    populate rand0 familyInit linesC1 = some famC1
    ∧ famC1.errors = 0
    ∧ famC1.households = [{ parents := 0, kids := [cIdv, cIdv], id := 0 }]
    ∧ cellGet famC1 (personOf famC1 cIdv).parents = [aIdv, bIdv]
    ∧ (personOf famC1 aIdv).households = [0]
    ∧ (personOf famC1 bIdv).households = [0] := by
  decide

/-- C8: the claim asserts the record parser fails with `MalformedRecord`
on a line that is empty after stripping; on the code `Person.__init__`
raises nothing for such a line, so the parse succeeds. -/
theorem C8_counterexample : ¬ parsePerson 0 0 (chars "   ") = none := by
  decide

/-- C8 amended: on a line that is empty after stripping whitespace the
record parser does not fail; it produces a Person with empty name, no
attributes and the empty-string id. -/
theorem C8_amended (r cell : Nat) (s : Str) (h : pyStrip s = []) :
    parsePerson r cell s
      = some { name := [], attr := [], id := AttrVal.str [], parents := cell,
               households := [], follow_kids := true } := by
  unfold parsePerson
  rw [h]
  simp [mkPerson, dictGet?, normalizeId]

theorem C8_witness :
    pyStrip (chars " \t ") = []
    ∧ parsePerson 7 5 (chars " \t ")
        = some { name := [], attr := [], id := AttrVal.str [], parents := 5,
                 households := [], follow_kids := true } :=
  ⟨by decide, C8_amended 7 5 (chars " \t ") (by decide)⟩

/-- C4: `next_generation` is exactly the concatenation, over the persons of
the generation in order with `follow_kids` set, over their households in
list order, of each household's kids in order; being a pure function of the
registry and the generation it is deterministic, fully determined by the
ingestion-time orders, and the emission loop stops as soon as a generation
is empty (closing the graph and exiting normally). -/
theorem C4_next_generation (fam : Family) (gen : List AttrVal) :
    next_generation fam gen
      = gen.flatMap (fun pid =>
          if (personOf fam pid).follow_kids then
            kidsThroughHouseholds fam (personOf fam pid)
          else [])
    ∧ ∀ fuel, emitLoop fam fuel [] = ([Out.raw closingBrace], RunExit.done) := by
  refine ⟨next_generation_eq fam gen, ?_⟩
  intro fuel
  cases fuel <;> rfl

theorem claimSlot_zero (c : Nat) (hc : 0 < c) : claimSlot c 0 = 0 := by
  unfold claimSlot
  split_ifs with h
  · omega
  · rfl

theorem claimSlot_step (c k : Nat) (_hk : k < c) :
    (if 2 * (claimSlot c k + 1) = c then claimSlot c k + 2 else claimSlot c k + 1)
      = claimSlot c (k + 1) := by
  unfold claimSlot
  split_ifs <;> omega

theorem kidEdgeLoop_eq (hid c : Nat) :
    ∀ (rest : List AttrVal) (k : Nat), k + rest.length = c →
      kidEdgeLoop hid c rest (claimSlot c k)
        = (List.range rest.length).map
            (fun j => Out.kidEdge hid (claimSlot c (k + j)) (rest.getD j default)) := by
  intro rest
  induction rest with
  | nil => intro k _hk; simp [kidEdgeLoop]
  | cons a rest ih =>
    intro k hk
    have hkc : k < c := by simp at hk; omega
    have hstep := claimSlot_step c k hkc
    simp only [kidEdgeLoop]
    rw [hstep, ih (k + 1) (by simp at hk ⊢; omega)]
    simp only [List.length_cons]
    rw [List.range_succ_eq_map]
    simp only [List.map_cons, List.map_map, Function.comp, Nat.add_zero,
               List.getD_cons_zero, List.getD_cons_succ, Nat.succ_eq_add_one]
    refine congrArg (List.cons _) ?_
    apply List.map_congr_left
    intro j hj
    have hadd : k + 1 + j = k + (j + 1) := by omega
    simp only [Function.comp_apply, Nat.succ_eq_add_one, List.getD_cons_succ]
    rw [hadd]

/-- C3: for a household with at least one kid, the emitted child rank has
`childCount + 1` junction slots when the kid count is even and exactly
`childCount` slots when it is odd; the household's single downward edge
goes to slot `floor(childCount/2)`; and the kid edges take the slots in
original kid order, skipping the reserved centre slot exactly when a
padding slot was added. -/
theorem C3_child_fan (hid : Nat) (kids : List AttrVal) (hne : kids ≠ []) :
    (fanSlots hid kids.length).countP isSlotNode
        = (if kids.length % 2 = 0 then kids.length + 1 else kids.length)
    ∧ (fanEdges hid kids).head? = some (Out.centerEdge hid (kids.length / 2))
    ∧ kidEdgeLoop hid kids.length kids 0
        = (List.range kids.length).map
            (fun j => Out.kidEdge hid (claimSlot kids.length j) (kids.getD j default)) := by
  refine ⟨?_, rfl, ?_⟩
  · unfold fanSlots
    rw [List.countP_cons]
    have hall : ((List.range (fanL kids.length)).map
        (fun i => Out.slotNode hid i)).countP isSlotNode
        = ((List.range (fanL kids.length)).map (fun i => Out.slotNode hid i)).length := by
      apply List.countP_eq_length.mpr
      intro a ha
      rcases List.mem_map.mp ha with ⟨i, _, rfl⟩
      rfl
    rw [hall]
    simp [isSlotNode, fanL]
  · have h0 : 0 < kids.length := List.length_pos.mpr hne
    have := kidEdgeLoop_eq hid kids.length kids 0 (by simp)
    rw [claimSlot_zero _ h0] at this
    rw [this]
    simp

/-- Witness for C3 at the scenario household with the three kids C, D, E:
3 slots (odd count, no padding), centre edge at slot 1, kid edges at slots
0, 1, 2. -/
theorem C3_witness :
    ([cIdv, AttrVal.str (chars "D"), AttrVal.str (chars "E")] ≠ ([] : List AttrVal))
    ∧ (fanSlots 0 3).countP isSlotNode = 3
    ∧ (fanEdges 0 [cIdv, AttrVal.str (chars "D"), AttrVal.str (chars "E")]).head?
        = some (Out.centerEdge 0 1)
    ∧ kidEdgeLoop 0 3 [cIdv, AttrVal.str (chars "D"), AttrVal.str (chars "E")] 0
        = [Out.kidEdge 0 0 cIdv, Out.kidEdge 0 1 (AttrVal.str (chars "D")),
           Out.kidEdge 0 2 (AttrVal.str (chars "E"))] := by
  have h := C3_child_fan 0 [cIdv, AttrVal.str (chars "D"), AttrVal.str (chars "E")]
      (by decide)
  refine ⟨by decide, ?_, h.2.1, ?_⟩
  · have := h.1
    simpa using this
  · have h3 := h.2.2
    simp only [List.length_cons, List.length_nil] at h3
    exact h3.trans (by decide)

/-- C7: the computed id is the explicit `id` attribute when present;
otherwise the name with every character outside `[0-9A-Za-z]` removed,
with a 3-digit decimal suffix equal to the drawn `randint(100, 999)` value
appended exactly when the `unique` flag is present. -/
theorem C7_id (r cell : Nat) (desc : Str) (p : Person)
    (hp : parsePerson r cell desc = some p) (h100 : 100 ≤ r) (h999 : r ≤ 999) :
    (∀ v, dictGet? p.attr idKey = some v → p.id = v)
    ∧ (dictGet? p.attr idKey = none → (dictGet? p.attr uniqueKey).isSome = false →
        p.id = AttrVal.str (normalizeId p.name))
    ∧ (dictGet? p.attr idKey = none → (dictGet? p.attr uniqueKey).isSome = true →
        p.id = AttrVal.str (normalizeId p.name ++ natDigits r)
        ∧ (natDigits r).length = 3) := by
  obtain ⟨nm, at0, rfl, -⟩ := parsePerson_inv hp
  refine ⟨?_, ?_, ?_⟩
  · intro v hv
    simp only [mkPerson] at hv ⊢
    rw [hv]
  · intro hid huniq
    simp only [mkPerson] at hid huniq ⊢
    rw [hid, huniq]
    simp
  · intro hid huniq
    simp only [mkPerson] at hid huniq ⊢
    rw [hid, huniq]
    exact ⟨by simp, natDigits_len3 r h100 h999⟩

theorem C7_witness :
    (parsePerson 123 0 (chars "Jean-Luc (unique)")).isSome = true
    ∧ 100 ≤ 123 ∧ 123 ≤ 999
    ∧ (mkPerson 123 0 (chars "Jean-Luc") [(chars "unique", AttrVal.flag)]).id
        = AttrVal.str (chars "JeanLuc123") := by
  have hp : parsePerson 123 0 (chars "Jean-Luc (unique)")
      = some (mkPerson 123 0 (chars "Jean-Luc") [(chars "unique", AttrVal.flag)]) := by
    decide
  have h := (C7_id 123 0 (chars "Jean-Luc (unique)")
      (mkPerson 123 0 (chars "Jean-Luc") [(chars "unique", AttrVal.flag)])
      hp (by decide) (by decide)).2.2 (by decide) (by decide)
  refine ⟨by rw [hp]; rfl, by decide, by decide, ?_⟩
  rw [h.1]
  decide

theorem registerPerson_eq_some {fam : Family} {p q : Person}
    (hq : dictGet? fam.everybody p.id = some q) :
    registerPerson fam p
      = ({ fam with everybody := dictInsert fam.everybody p.id
                      { q with attr := dictUpdate q.attr p.attr } }, p.id) := by
  unfold registerPerson
  rw [hq]

theorem registerPerson_eq_none {fam : Family} {p : Person}
    (hq : dictGet? fam.everybody p.id = none) :
    registerPerson fam p
      = ({ fam with everybody := dictInsert fam.everybody p.id p }, p.id) := by
  unfold registerPerson
  rw [hq]

theorem add_person_eq {fam : Family} {r : Nat} {desc : Str} {p : Person}
    (hp : parsePerson r fam.cells.length desc = some p) :
    add_person fam r desc
      = some (registerPerson { fam with cells := fam.cells ++ [[]] } p) := by
  unfold add_person
  rw [hp]

/-- Adding a person whose id already exists merges the new attributes into
the stored person and returns the existing entry. -/
theorem add_person_merge {fam : Family} {r : Nat} {desc : Str} {p q : Person}
    (hp : parsePerson r fam.cells.length desc = some p)
    (hq : dictGet? fam.everybody p.id = some q) :
    add_person fam r desc
      = some ({ fam with
                  everybody := dictInsert fam.everybody p.id
                    { q with attr := dictUpdate q.attr p.attr },
                  cells := fam.cells ++ [[]] }, p.id) := by
  rw [add_person_eq hp]
  have hq1 : dictGet? ({ fam with cells := fam.cells ++ [[]] } : Family).everybody p.id
      = some q := hq
  rw [registerPerson_eq_some hq1]

/-- C6: re-adding a person whose computed id is already registered creates
no second entry: the key list is unchanged (and stays duplicate-free), the
stored person's attributes are the old ones updated by the new ones with
the last-specified value winning on any key, and the returned person is
the stored entry. -/
theorem C6_merge (fam : Family) (r : Nat) (desc : Str) (p q : Person)
    (hp : parsePerson r fam.cells.length desc = some p)
    (hq : dictGet? fam.everybody p.id = some q)
    (hnd : (dictKeys fam.everybody).Nodup) :
    ∃ fam1, add_person fam r desc = some (fam1, p.id)
      ∧ dictKeys fam1.everybody = dictKeys fam.everybody
      ∧ dictGet? fam1.everybody p.id = some { q with attr := dictUpdate q.attr p.attr }
      ∧ (∀ k, dictGet? (dictUpdate q.attr p.attr) k
            = (dictGet? p.attr k).or (dictGet? q.attr k))
      ∧ (dictKeys fam1.everybody).Nodup := by
  have hattr : (dictKeys p.attr).Nodup := by
    obtain ⟨nm, at0, rfl, hnd0⟩ := parsePerson_inv hp
    exact hnd0
  have hkeys : dictKeys (dictInsert fam.everybody p.id
      { q with attr := dictUpdate q.attr p.attr }) = dictKeys fam.everybody :=
    dictKeys_dictInsert_of_mem _ (mem_dictKeys_of_get hq)
  refine ⟨_, add_person_merge hp hq, hkeys, ?_, ?_, ?_⟩
  · rw [dictGet?_dictInsert]
    simp
  · intro k
    exact dictGet?_dictUpdate q.attr p.attr hattr k
  · rw [hkeys]; exact hnd

theorem C6_witness :
    ∃ fam1, add_person famC6 0 (chars "A(x=2, y)") = some (fam1, pC6.id)
      ∧ dictKeys fam1.everybody = dictKeys famC6.everybody
      ∧ dictGet? fam1.everybody pC6.id
          = some { pC6q with attr := dictUpdate pC6q.attr pC6.attr }
      ∧ (∀ k, dictGet? (dictUpdate pC6q.attr pC6.attr) k
            = (dictGet? pC6.attr k).or (dictGet? pC6q.attr k))
      ∧ (dictKeys fam1.everybody).Nodup :=
  C6_merge famC6 0 (chars "A(x=2, y)") pC6 pC6q (by decide) (by decide) (by decide)

theorem addHouseholdStep_eq_none (hid : Nat) (f : Family) (pid : AttrVal)
    (hq : dictGet? f.everybody pid = none) : addHouseholdStep hid f pid = f := by
  unfold addHouseholdStep
  rw [hq]

theorem addHouseholdStep_eq_some (hid : Nat) (f : Family) (pid : AttrVal) (q : Person)
    (hq : dictGet? f.everybody pid = some q) :
    addHouseholdStep hid f pid
      = if hid ∈ q.households then f
        else { f with everybody := dictInsert f.everybody pid
                        { q with households := q.households ++ [hid] } } := by
  unfold addHouseholdStep
  rw [hq]

theorem addHouseholdStep_households (hid : Nat) (f : Family) (pid : AttrVal) :
    (addHouseholdStep hid f pid).households = f.households := by
  cases hq : dictGet? f.everybody pid with
  | none => rw [addHouseholdStep_eq_none hid f pid hq]
  | some p =>
    rw [addHouseholdStep_eq_some hid f pid p hq]
    by_cases hm : hid ∈ p.households
    · rw [if_pos hm]
    · rw [if_neg hm]

theorem addHouseholdStep_errors (hid : Nat) (f : Family) (pid : AttrVal) :
    (addHouseholdStep hid f pid).errors = f.errors := by
  cases hq : dictGet? f.everybody pid with
  | none => rw [addHouseholdStep_eq_none hid f pid hq]
  | some p =>
    rw [addHouseholdStep_eq_some hid f pid p hq]
    by_cases hm : hid ∈ p.households
    · rw [if_pos hm]
    · rw [if_neg hm]

theorem addHouseholdStep_cells (hid : Nat) (f : Family) (pid : AttrVal) :
    (addHouseholdStep hid f pid).cells = f.cells := by
  cases hq : dictGet? f.everybody pid with
  | none => rw [addHouseholdStep_eq_none hid f pid hq]
  | some p =>
    rw [addHouseholdStep_eq_some hid f pid p hq]
    by_cases hm : hid ∈ p.households
    · rw [if_pos hm]
    · rw [if_neg hm]

theorem addHouseholdStep_get_self (hid : Nat) (f : Family) (pid : AttrVal) (q : Person)
    (hq : dictGet? f.everybody pid = some q) :
    dictGet? (addHouseholdStep hid f pid).everybody pid
      = some { q with households :=
          if hid ∈ q.households then q.households else q.households ++ [hid] } := by
  rw [addHouseholdStep_eq_some hid f pid q hq]
  by_cases hm : hid ∈ q.households
  · rw [if_pos hm, if_pos hm, hq]
  · rw [if_neg hm, if_neg hm]
    show dictGet? (dictInsert f.everybody pid _) pid = _
    rw [dictGet?_dictInsert, if_pos rfl]

theorem addHouseholdStep_get_other (hid : Nat) (f : Family) (pid k : AttrVal)
    (hne : ¬ pid = k) :
    dictGet? (addHouseholdStep hid f pid).everybody k = dictGet? f.everybody k := by
  cases hq : dictGet? f.everybody pid with
  | none => rw [addHouseholdStep_eq_none hid f pid hq]
  | some p =>
    rw [addHouseholdStep_eq_some hid f pid p hq]
    by_cases hm : hid ∈ p.households
    · rw [if_pos hm]
    · rw [if_neg hm]
      show dictGet? (dictInsert f.everybody pid _) k = _
      rw [dictGet?_dictInsert, if_neg hne]

/-- C5: finalising a household whose parent list does not have exactly two
entries reports the problem (one error print), changes nothing else, and
processing continues; an accepted household gets its insertion index as id
and is appended to each of its two parents' household lists only if not
already present; an empty current household at a blank line or at end of
input is silently discarded, registering nothing and reporting nothing. -/
theorem C5_household_rules :
    (∀ (fam : Family) (h : Household), (cellGet fam h.parents).length ≠ 2 →
        add_household fam h = { fam with errors := fam.errors + 1 })
    ∧ (∀ (fam : Family) (h : Household) (pa pb : AttrVal) (qa qb : Person),
        cellGet fam h.parents = [pa, pb] → pa ≠ pb →
        dictGet? fam.everybody pa = some qa → dictGet? fam.everybody pb = some qb →
        (add_household fam h).households
            = fam.households ++ [{ h with id := fam.households.length }]
        ∧ (add_household fam h).errors = fam.errors
        ∧ dictGet? (add_household fam h).everybody pa = some
            { qa with households :=
                if fam.households.length ∈ qa.households then qa.households
                else qa.households ++ [fam.households.length] }
        ∧ dictGet? (add_household fam h).everybody pb = some
            { qb with households :=
                if fam.households.length ∈ qb.households then qb.households
                else qb.households ++ [fam.households.length] })
    ∧ (∀ (rand : Nat → Nat) (st : PState) (line : Str), pyRstrip line = [] →
        st.h.isempty st.fam = true →
        ∃ st1, populateStep rand st line = some st1
          ∧ st1.fam.everybody = st.fam.everybody
          ∧ st1.fam.households = st.fam.households
          ∧ st1.fam.errors = st.fam.errors)
    ∧ (∀ (rand : Nat → Nat) (st : PState), st.h.isempty st.fam = true →
        populateGo rand st [] = some st.fam) := by
  refine ⟨?_, ?_, ?_, ?_⟩
  · intro fam h hne
    unfold add_household
    rw [if_pos hne]
  · intro fam h pa pb qa qb hc hne hqa hqb
    have heq : add_household fam h
        = addHouseholdStep fam.households.length
            (addHouseholdStep fam.households.length
              { fam with households :=
                  fam.households ++ [{ h with id := fam.households.length }] }
              pa) pb := by
      simp only [add_household]
      rw [if_neg (by rw [hc]; simp)]
      have hc1 : cellGet
          { fam with households := fam.households ++ [{ h with id := fam.households.length }] }
          h.parents = [pa, pb] := hc
      rw [hc1]
      rfl
    have hqa1 : dictGet?
        ({ fam with households := fam.households ++ [{ h with id := fam.households.length }]
         } : Family).everybody pa = some qa := hqa
    have hgeta := addHouseholdStep_get_self fam.households.length _ pa qa hqa1
    have hqb1 : dictGet?
        (addHouseholdStep fam.households.length
          { fam with households := fam.households ++ [{ h with id := fam.households.length }] }
          pa).everybody pb = some qb := by
      rw [addHouseholdStep_get_other _ _ pa pb hne]
      exact hqb
    refine ⟨?_, ?_, ?_, ?_⟩
    · rw [heq, addHouseholdStep_households, addHouseholdStep_households]
    · rw [heq, addHouseholdStep_errors, addHouseholdStep_errors]
    · rw [heq, addHouseholdStep_get_other _ _ pb pa (fun hx => hne hx.symm), hgeta]
    · rw [heq, addHouseholdStep_get_self _ _ pb qb hqb1]
  · intro rand st line hline hemp
    have hstep : populateStep rand st line
        = some { fam := { st.fam with cells := st.fam.cells ++ [[]] },
                 h := { parents := st.fam.cells.length, kids := [], id := 0 },
                 pos := st.pos } := by
      simp only [populateStep]
      rw [hline]
      simp [hemp, newHousehold, newList]
    exact ⟨_, hstep, rfl, rfl, rfl⟩
  · intro rand st hemp
    simp [populateGo, hemp]

theorem C5_witness :
    add_household famBad hh5 = { famBad with errors := famBad.errors + 1 }
    ∧ ((add_household famTwo hh5).households
          = famTwo.households ++ [{ hh5 with id := famTwo.households.length }]
        ∧ (add_household famTwo hh5).errors = famTwo.errors
        ∧ dictGet? (add_household famTwo hh5).everybody aIdv = some
            { pA5 with households :=
                if famTwo.households.length ∈ pA5.households then pA5.households
                else pA5.households ++ [famTwo.households.length] }
        ∧ dictGet? (add_household famTwo hh5).everybody bIdv = some
            { pB5 with households :=
                if famTwo.households.length ∈ pB5.households then pB5.households
                else pB5.households ++ [famTwo.households.length] })
    ∧ (∃ st1, populateStep rand0 stW (chars "") = some st1
        ∧ st1.fam.everybody = stW.fam.everybody
        ∧ st1.fam.households = stW.fam.households
        ∧ st1.fam.errors = stW.fam.errors)
    ∧ populateGo rand0 stW [] = some stW.fam :=
  ⟨C5_household_rules.1 famBad hh5 (by decide),
   C5_household_rules.2.1 famTwo hh5 aIdv bIdv pA5 pB5 (by decide) (by decide)
     (by decide) (by decide),
   C5_household_rules.2.2.1 rand0 stW (chars "") (by decide) (by decide),
   C5_household_rules.2.2.2 rand0 stW (by decide)⟩

/-- Effect of `add_person` on everything except the touched dictionary
entry: one fresh cell is allocated, households and error count are
untouched, the returned id is registered, and every previously registered
person keeps its `parents` reference and `households` list (a merge only
updates `attr`). -/
theorem add_person_inv {fam : Family} {r : Nat} {desc : Str} {fam2 : Family} {rid : AttrVal}
    (h : add_person fam r desc = some (fam2, rid)) :
    fam2.cells = fam.cells ++ [[]]
    ∧ fam2.households = fam.households
    ∧ fam2.errors = fam.errors
    ∧ (∃ p1, dictGet? fam2.everybody rid = some p1)
    ∧ (∀ k p0, dictGet? fam.everybody k = some p0 →
        ∃ p1, dictGet? fam2.everybody k = some p1
          ∧ p1.parents = p0.parents ∧ p1.households = p0.households) := by
  cases hp : parsePerson r fam.cells.length desc with
  | none => rw [add_person, hp] at h; cases h
  | some p =>
    rw [add_person_eq hp] at h
    cases hq : dictGet? ({ fam with cells := fam.cells ++ [[]] } : Family).everybody p.id with
    | some q =>
      rw [registerPerson_eq_some hq] at h
      cases h
      refine ⟨rfl, rfl, rfl, ?_, ?_⟩
      · exact ⟨_, by rw [dictGet?_dictInsert, if_pos rfl]⟩
      · intro k p0 hk
        by_cases hik : p.id = k
        · subst hik
          have hpq : p0 = q := by
            have hq2 : dictGet? fam.everybody p.id = some q := hq
            rw [hk] at hq2
            exact Option.some.inj hq2
          subst hpq
          exact ⟨{ p0 with attr := dictUpdate p0.attr p.attr },
                 by rw [dictGet?_dictInsert, if_pos rfl], rfl, rfl⟩
        · exact ⟨p0, by rw [dictGet?_dictInsert, if_neg hik]; exact hk, rfl, rfl⟩
    | none =>
      rw [registerPerson_eq_none hq] at h
      cases h
      refine ⟨rfl, rfl, rfl, ?_, ?_⟩
      · exact ⟨_, by rw [dictGet?_dictInsert, if_pos rfl]⟩
      · intro k p0 hk
        by_cases hik : p.id = k
        · subst hik
          have hq2 : dictGet? fam.everybody p.id = none := hq
          rw [hk] at hq2
          cases hq2
        · exact ⟨p0, by rw [dictGet?_dictInsert, if_neg hik]; exact hk, rfl, rfl⟩

theorem setParents_get_self {fam : Family} {pid : AttrVal} {q : Person}
    (hq : dictGet? fam.everybody pid = some q) (cell : Nat) :
    dictGet? (setParents fam pid cell).everybody pid = some { q with parents := cell } := by
  unfold setParents
  rw [hq]
  show dictGet? (dictInsert fam.everybody pid _) pid = _
  rw [dictGet?_dictInsert, if_pos rfl]

theorem setParents_cells (fam : Family) (pid : AttrVal) (cell : Nat) :
    (setParents fam pid cell).cells = fam.cells := by
  unfold setParents
  cases hq : dictGet? fam.everybody pid with
  | none => rfl
  | some q => rfl

theorem setParents_get {fam : Family} {pid k : AttrVal} {cell : Nat} {p0 : Person}
    (hk : dictGet? fam.everybody k = some p0) :
    ∃ p1, dictGet? (setParents fam pid cell).everybody k = some p1
      ∧ p1.households = p0.households
      ∧ (¬ pid = k → p1 = p0) ∧ (pid = k → p1 = { p0 with parents := cell }) := by
  unfold setParents
  cases hq : dictGet? fam.everybody pid with
  | none =>
    refine ⟨p0, hk, rfl, fun _ => rfl, ?_⟩
    intro hik
    subst hik
    rw [hk] at hq
    cases hq
  | some q =>
    by_cases hik : pid = k
    · subst hik
      have hpq : p0 = q := by
        rw [hk] at hq
        exact (Option.some.inj hq)
      subst hpq
      refine ⟨{ p0 with parents := cell }, ?_, rfl, fun hc => absurd rfl hc, fun _ => rfl⟩
      show dictGet? (dictInsert fam.everybody pid _) pid = _
      rw [dictGet?_dictInsert, if_pos rfl]
    · refine ⟨p0, ?_, rfl, fun _ => rfl, fun hc => absurd hc hik⟩
      show dictGet? (dictInsert fam.everybody pid _) k = _
      rw [dictGet?_dictInsert, if_neg hik]
      exact hk

theorem cellAppend_get_self (fam : Family) (i : Nat) (v : AttrVal)
    (hi : i < fam.cells.length) :
    cellGet (cellAppend fam i v) i = cellGet fam i ++ [v] := by
  unfold cellAppend cellGet
  exact getD_set_self _ _ _ _ hi

theorem populateStep_child (rand : Nat → Nat) (st : PState) {line0 t : Str}
    (hline : pyRstrip line0 = '\t' :: t) {fp : Family × AttrVal}
    (hadd : add_person st.fam (rand st.pos) t = some fp) :
    populateStep rand st line0
      = some { fam := setParents fp.1 fp.2 st.h.parents,
               h := { st.h with kids := st.h.kids ++ [fp.2] }, pos := st.pos + 1 } := by
  simp only [populateStep]
  rw [hline]
  rw [if_neg (by simp), if_neg (by simp [List.headD_cons]), if_pos (by simp [List.headD_cons])]
  simp only [List.drop_succ_cons, List.drop_zero]
  rw [hadd]

theorem populateStep_parent (rand : Nat → Nat) (st : PState) {line0 : Str}
    (hr : pyRstrip line0 = line0) (hne : ¬ line0 = [])
    (hh : ¬ (line0.headD ' ' == '#') = true) (ht : ¬ (line0.headD ' ' == '\t') = true)
    {fp : Family × AttrVal}
    (hadd : add_person st.fam (rand st.pos) line0 = some fp) :
    populateStep rand st line0
      = some { fam := cellAppend fp.1 st.h.parents fp.2, h := st.h, pos := st.pos + 1 } := by
  simp only [populateStep]
  rw [hr]
  rw [if_neg hne, if_neg hh, if_neg ht, hadd]

/-- C10: processing a child line rebinds the child's `parents` reference to
the current block's shared parents list, so a parent line processed later
in the same block is also visible through the child's back-reference; and
when that household is later rejected for a wrong parent count, only the
household object is dropped — the registry and all back-references made
through the shared list survive. -/
theorem C10_aliasing (rand : Nat → Nat) (st : PState) (cdesc pline : Str)
    (famc famp : Family) (cid pid : AttrVal)
    (h1r : pyRstrip ('\t' :: cdesc) = '\t' :: cdesc)
    (h2r : pyRstrip pline = pline) (h2ne : ¬ pline = [])
    (h2h : ¬ (pline.headD ' ' == '#') = true)
    (h2t : ¬ (pline.headD ' ' == '\t') = true)
    (hcell : st.h.parents < st.fam.cells.length)
    (hadd1 : add_person st.fam (rand st.pos) cdesc = some (famc, cid))
    (hadd2 : add_person (setParents famc cid st.h.parents) (rand (st.pos + 1)) pline
        = some (famp, pid)) :
    ∃ st1 st2,
      populateStep rand st ('\t' :: cdesc) = some st1
      ∧ populateStep rand st1 pline = some st2
      ∧ (personOf st1.fam cid).parents = st.h.parents
      ∧ (personOf st2.fam cid).parents = st.h.parents
      ∧ cellGet st2.fam st.h.parents = cellGet st.fam st.h.parents ++ [pid]
      ∧ cellGet st2.fam ((personOf st2.fam cid).parents)
          = cellGet st.fam st.h.parents ++ [pid]
      ∧ cid ∈ st2.h.kids
      ∧ (∀ (g : Family) (hh : Household), (cellGet g hh.parents).length ≠ 2 →
          (add_household g hh).everybody = g.everybody
          ∧ (add_household g hh).cells = g.cells) := by
  obtain ⟨q, hq⟩ := (add_person_inv hadd1).2.2.2.1
  have hs1 := populateStep_child rand st h1r hadd1
  have hs2 := populateStep_parent rand
      { fam := setParents famc cid st.h.parents,
        h := { st.h with kids := st.h.kids ++ [cid] }, pos := st.pos + 1 }
      h2r h2ne h2h h2t hadd2
  have hgetc : dictGet? (setParents famc cid st.h.parents).everybody cid
      = some { q with parents := st.h.parents } := setParents_get_self hq st.h.parents
  obtain ⟨p1, hp1, hpar, hhouse⟩ := (add_person_inv hadd2).2.2.2.2 cid _ hgetc
  have hpar2 : p1.parents = st.h.parents := hpar
  have hc1 : famc.cells = st.fam.cells ++ [[]] := (add_person_inv hadd1).1
  have hc3 : famp.cells = (setParents famc cid st.h.parents).cells ++ [[]] :=
    (add_person_inv hadd2).1
  have hcells : famp.cells = st.fam.cells ++ [[]] ++ [[]] := by
    rw [hc3, setParents_cells, hc1]
  have hlt : st.h.parents < famp.cells.length := by
    rw [hcells]
    simp
    omega
  have hgfam : cellGet famp st.h.parents = cellGet st.fam st.h.parents := by
    unfold cellGet
    rw [hcells]
    rw [getD_append_left _ _ _ _ (by simp; omega), getD_append_left _ _ _ _ hcell]
  have hC : cellGet (cellAppend famp st.h.parents pid) st.h.parents
      = cellGet st.fam st.h.parents ++ [pid] := by
    rw [cellAppend_get_self famp st.h.parents pid hlt, hgfam]
  have hB : (personOf (cellAppend famp st.h.parents pid) cid).parents = st.h.parents := by
    unfold personOf
    have hp1c : dictGet? (cellAppend famp st.h.parents pid).everybody cid = some p1 := hp1
    rw [hp1c]
    exact hpar2
  refine ⟨_, _, hs1, hs2, ?_, hB, hC, ?_, ?_, ?_⟩
  · unfold personOf
    rw [hgetc]
    rfl
  · rw [hB]
    exact hC
  · exact List.mem_append_right _ (List.mem_singleton_self cid)
  · intro g hh hlen
    unfold add_household
    rw [if_pos hlen]
    exact ⟨rfl, rfl⟩

theorem C10_witness :
    ∃ st1 st2,
      populateStep rand0 stW ('\t' :: chars "C") = some st1
      ∧ populateStep rand0 st1 (chars "A") = some st2
      ∧ (personOf st1.fam cIdv).parents = stW.h.parents
      ∧ (personOf st2.fam cIdv).parents = stW.h.parents
      ∧ cellGet st2.fam stW.h.parents = cellGet stW.fam stW.h.parents ++ [aIdv]
      ∧ cellGet st2.fam ((personOf st2.fam cIdv).parents)
          = cellGet stW.fam stW.h.parents ++ [aIdv]
      ∧ cIdv ∈ st2.h.kids
      ∧ (∀ (g : Family) (hh : Household), (cellGet g hh.parents).length ≠ 2 →
          (add_household g hh).everybody = g.everybody
          ∧ (add_household g hh).cells = g.cells) :=
  C10_aliasing rand0 stW (chars "C") (chars "A") famcW fampW cIdv aIdv
    (by decide) (by decide) (by decide) (by decide) (by decide) (by decide)
    (by decide) (by decide)

theorem rank1Go_err_of_mem (fam : Family) :
    ∀ (gen : List AttrVal) (prev : Option AttrVal) (acc : List Out),
      (∃ p ∈ gen, 2 < (personOf fam p).households.length) →
      ∃ q, 2 < (personOf fam q).households.length
        ∧ (rank1Go fam gen prev acc).2 = some (spouseErr (personOf fam q).name) := by
  intro gen
  induction gen with
  | nil =>
    intro prev acc hmem
    obtain ⟨p, hp, -⟩ := hmem
    simp at hp
  | cons pid rest ih =>
    intro prev acc hmem
    simp only [rank1Go]
    by_cases h0 : (personOf fam pid).households.length = 0
    · rw [if_pos h0]
      apply ih
      obtain ⟨p, hp, h2⟩ := hmem
      rcases List.mem_cons.mp hp with rfl | hp
      · omega
      · exact ⟨p, hp, h2⟩
    · rw [if_neg h0]
      by_cases h2 : 2 < (personOf fam pid).households.length
      · rw [if_pos h2]
        exact ⟨pid, h2, rfl⟩
      · rw [if_neg h2]
        apply ih
        obtain ⟨p, hp, hp2⟩ := hmem
        rcases List.mem_cons.mp hp with rfl | hp
        · omega
        · exact ⟨p, hp, hp2⟩

theorem rank1Go_err_inv (fam : Family) :
    ∀ (gen : List AttrVal) (prev : Option AttrVal) (acc : List Out) (e : Str),
      (rank1Go fam gen prev acc).2 = some e →
      ∃ q, 2 < (personOf fam q).households.length
        ∧ e = spouseErr (personOf fam q).name := by
  intro gen
  induction gen with
  | nil =>
    intro prev acc e he
    simp [rank1Go] at he
  | cons pid rest ih =>
    intro prev acc e he
    simp only [rank1Go] at he
    by_cases h0 : (personOf fam pid).households.length = 0
    · rw [if_pos h0] at he
      exact ih _ _ _ he
    · rw [if_neg h0] at he
      by_cases h2 : 2 < (personOf fam pid).households.length
      · rw [if_pos h2] at he
        exact ⟨pid, h2, (Option.some.inj he).symm⟩
      · rw [if_neg h2] at he
        exact ih _ _ _ he

theorem display_err_of_mem (fam : Family) (gen : List AttrVal)
    (hmem : ∃ p ∈ gen, 2 < (personOf fam p).households.length) :
    ∃ q, 2 < (personOf fam q).households.length
      ∧ (display_generation fam gen).2 = some (spouseErr (personOf fam q).name) := by
  obtain ⟨q, h2, herr⟩ := rank1Go_err_of_mem fam gen none [Out.rankOpen] hmem
  rcases hr : rank1Go fam gen none [Out.rankOpen] with ⟨o, e?⟩
  rw [hr] at herr
  cases e? with
  | none => cases herr
  | some m =>
    refine ⟨q, h2, ?_⟩
    rw [display_generation, hr]
    exact herr

theorem display_err_inv (fam : Family) (gen : List AttrVal) (e : Str)
    (he : (display_generation fam gen).2 = some e) :
    ∃ q, 2 < (personOf fam q).households.length
      ∧ e = spouseErr (personOf fam q).name := by
  rcases hr : rank1Go fam gen none [Out.rankOpen] with ⟨o, e?⟩
  cases e? with
  | none =>
    rw [display_generation, hr] at he
    cases he
  | some m =>
    rw [display_generation, hr] at he
    have hm : (rank1Go fam gen none [Out.rankOpen]).2 = some m := by rw [hr]
    obtain ⟨q, h2, rfl⟩ := rank1Go_err_inv fam gen none [Out.rankOpen] m hm
    exact ⟨q, h2, Option.some.inj he.symm⟩

theorem next_generation_nil (fam : Family) : next_generation fam [] = [] := rfl

theorem nextIter_nil (fam : Family) : ∀ k, nextIter fam k [] = [] := by
  intro k
  induction k with
  | zero => rfl
  | succ k ih => show nextIter fam k (next_generation fam []) = []; rw [next_generation_nil]; exact ih

theorem nextIter_succ_comm (fam : Family) :
    ∀ (k : Nat) (g : List AttrVal),
      nextIter fam (k + 1) g = next_generation fam (nextIter fam k g) := by
  intro k
  induction k with
  | zero => intro g; rfl
  | succ k ih =>
    intro g
    show nextIter fam (k + 1) (next_generation fam g) = _
    rw [ih (next_generation fam g)]
    rfl

theorem generations_eq_nextIter (fam : Family) (start : AttrVal) :
    ∀ n, generations fam start n = nextIter fam n [start] := by
  intro n
  induction n with
  | zero => rfl
  | succ n ih =>
    show next_generation fam (generations fam start n) = _
    rw [ih, nextIter_succ_comm]

theorem emitLoop_cons_err {fam : Family} {fuel : Nat} {a : AttrVal} {rest : List AttrVal}
    {o : List Out} {m : Str} (hd : display_generation fam (a :: rest) = (o, some m)) :
    emitLoop fam (fuel + 1) (a :: rest) = (o, RunExit.aborted m) := by
  rw [emitLoop, hd]
  exact fun h => List.noConfusion h

theorem emitLoop_cons_none {fam : Family} {fuel : Nat} {a : AttrVal} {rest : List AttrVal}
    {o : List Out} (hd : display_generation fam (a :: rest) = (o, none)) :
    emitLoop fam (fuel + 1) (a :: rest)
      = (o ++ (emitLoop fam fuel (next_generation fam (a :: rest))).1,
         (emitLoop fam fuel (next_generation fam (a :: rest))).2) := by
  rw [emitLoop, hd]
  exact fun h => List.noConfusion h

theorem emit_abort (fam : Family) :
    ∀ (k : Nat) (fuel : Nat) (gen : List AttrVal),
      (∃ p ∈ nextIter fam k gen, 2 < (personOf fam p).households.length) →
      k < fuel →
      ∃ q, 2 < (personOf fam q).households.length
        ∧ (emitLoop fam fuel gen).2 = RunExit.aborted (spouseErr (personOf fam q).name) := by
  intro k
  induction k with
  | zero =>
    intro fuel gen hmem hk
    cases gen with
    | nil =>
      obtain ⟨p, hp, -⟩ := hmem
      simp [nextIter] at hp
    | cons a rest =>
      cases fuel with
      | zero => omega
      | succ fuel =>
        obtain ⟨q, h2, herr⟩ := display_err_of_mem fam (a :: rest) hmem
        rcases hd : display_generation fam (a :: rest) with ⟨o, e?⟩
        rw [hd] at herr
        cases e? with
        | none => cases herr
        | some m =>
          refine ⟨q, h2, ?_⟩
          rw [emitLoop_cons_err hd]
          show RunExit.aborted m = _
          rw [Option.some.inj herr]
  | succ k ih =>
    intro fuel gen hmem hk
    cases gen with
    | nil =>
      obtain ⟨p, hp, -⟩ := hmem
      rw [nextIter_nil] at hp
      simp at hp
    | cons a rest =>
      cases fuel with
      | zero => omega
      | succ fuel =>
        rcases hd : display_generation fam (a :: rest) with ⟨o, e?⟩
        cases e? with
        | some m =>
          have hm : (display_generation fam (a :: rest)).2 = some m := by rw [hd]
          obtain ⟨q, h2, rfl⟩ := display_err_inv fam (a :: rest) m hm
          refine ⟨q, h2, ?_⟩
          rw [emitLoop_cons_err hd]
        | none =>
          obtain ⟨q, h2, habort⟩ := ih fuel (next_generation fam (a :: rest)) hmem (by omega)
          refine ⟨q, h2, ?_⟩
          rw [emitLoop_cons_none hd]
          exact habort

/-- C2 amended: when a person reached during emission has more than 2
households, the run is aborted by the fatal error naming an offending
person (the layout has no defined behaviour beyond 2 spouses) — but the
output already printed before the exception (the header and the person
node declarations) has been emitted, so the run's output is nonempty and
incomplete rather than absent. -/
theorem C2_aborts (fam : Family) (start p : AttrVal) (n fuel : Nat)
    (hp : p ∈ generations fam start n) (hn : n < fuel)
    (hcount : 2 < (personOf fam p).households.length) :
    (∃ q, 2 < (personOf fam q).households.length
        ∧ (output_descending_tree fam start fuel).2
            = RunExit.aborted (spouseErr (personOf fam q).name))
    ∧ (output_descending_tree fam start fuel).1 ≠ [] := by
  have hitr : p ∈ nextIter fam n [start] := by
    rw [← generations_eq_nextIter]
    exact hp
  obtain ⟨q, h2, habort⟩ := emit_abort fam n fuel [start] ⟨p, hitr, hcount⟩ hn
  constructor
  · refine ⟨q, h2, ?_⟩
    show (emitLoop fam fuel [start]).2 = _
    exact habort
  · show ¬ (output_descending_tree fam start fuel).1 = []
    simp [output_descending_tree]

/-- C2: the claim asserts that on a person with more than 2 households the
run fails with the fatal error and that no output is emitted. On the code
the exception is raised only after the header and every person node
declaration have been printed, so output has been emitted: the claim's
last conjunct is false. -/
theorem C2_counterexample :
    (output_descending_tree famX aIdv 1).2
        = RunExit.aborted (spouseErr (chars "A"))
    ∧ ¬ (output_descending_tree famX aIdv 1).1 = [] := by
  decide

theorem C2_witness :
    (∃ q, 2 < (personOf famX q).households.length
        ∧ (output_descending_tree famX aIdv 1).2
            = RunExit.aborted (spouseErr (personOf famX q).name))
    ∧ (output_descending_tree famX aIdv 1).1 ≠ [] :=
  C2_aborts famX aIdv aIdv 0 1 (by decide) (by decide) (by decide)

theorem PathL.trans_to_end {r : AttrVal → AttrVal → Prop} {a : AttrVal}
    {l : List AttrVal} {b : AttrVal} (hp : PathL r a l b) :
    ∀ x ∈ l, Relation.TransGen r x b ∨ x = b := by
  induction hp with
  | nil => intro x hx; simp at hx
  | snoc hpath hstep ih =>
    intro x hx
    rcases List.mem_append.mp hx with hx | hx
    · rcases ih x hx with htr | rfl
      · exact Or.inl (htr.tail hstep)
      · exact Or.inl (Relation.TransGen.single hstep)
    · have hxc := List.mem_singleton.mp hx
      subst hxc
      exact Or.inr rfl

theorem PathL.nodup {r : AttrVal → AttrVal → Prop}
    (hacyc : ∀ x, ¬ Relation.TransGen r x x) {a : AttrVal}
    {l : List AttrVal} {b : AttrVal} (hp : PathL r a l b) : l.Nodup := by
  induction hp with
  | nil => exact List.nodup_nil
  | snoc hpath hstep ih =>
    rename_i l2 b2 c2
    have hcnot : c2 ∉ l2 := by
      intro hc
      rcases hpath.trans_to_end c2 hc with htr | rfl
      · exact hacyc c2 (htr.tail hstep)
      · exact hacyc c2 (Relation.TransGen.single hstep)
    simp [List.nodup_append, ih, hcnot]

theorem PathL.mem_keys {r : AttrVal → AttrVal → Prop} {K : List AttrVal}
    (hdom : ∀ x y, r x y → y ∈ K) {a : AttrVal} {l : List AttrVal} {b : AttrVal}
    (hp : PathL r a l b) : ∀ x ∈ l, x ∈ K := by
  induction hp with
  | nil => intro x hx; simp at hx
  | snoc hpath hstep ih =>
    intro x hx
    rcases List.mem_append.mp hx with hx | hx
    · exact ih x hx
    · have hxc := List.mem_singleton.mp hx
      subst hxc
      exact hdom _ _ hstep

theorem mem_generations_pathL (fam : Family) (start : AttrVal) :
    ∀ (n : Nat) (q : AttrVal), q ∈ generations fam start n →
      ∃ l, PathL (childRel fam) start l q ∧ l.length = n := by
  intro n
  induction n with
  | zero =>
    intro q hq
    have hq2 : q = start := by simpa [generations] using hq
    subst hq2
    exact ⟨[], PathL.nil q, rfl⟩
  | succ n ih =>
    intro q hq
    have hq2 : q ∈ next_generation fam (generations fam start n) := hq
    obtain ⟨p, hp, hr⟩ := mem_next_generation hq2
    obtain ⟨l, hpath, hlen⟩ := ih p hp
    exact ⟨l ++ [q], PathL.snoc hpath hr, by simp [hlen]⟩

/-- C9: on a finite registry whose parent-to-kid graph is acyclic (no
person is their own ancestor), the generation walk from any start reaches
the empty generation after finitely many steps, and the emission loop of
`output_descending_tree` finishes within finite fuel (it is not cut off by
fuel exhaustion, the model's stand-in for nontermination). -/
theorem C9_termination (fam : Family) (start : AttrVal)
    (hdom : ∀ a b, childRel fam a b → b ∈ dictKeys fam.everybody)
    (hacyc : ∀ a, ¬ Relation.TransGen (childRel fam) a a) :
    (∃ n, generations fam start n = [])
    ∧ (∃ fuel, (output_descending_tree fam start fuel).2 ≠ RunExit.fuelOut) := by
  have hterm : generations fam start ((dictKeys fam.everybody).length + 1) = [] := by
    by_contra hne
    obtain ⟨q, hq⟩ := List.exists_mem_of_ne_nil _ hne
    obtain ⟨l, hpath, hlen⟩ := mem_generations_pathL fam start _ q hq
    have hnd : l.Nodup := hpath.nodup hacyc
    have hsub : l ⊆ dictKeys fam.everybody := fun x hx => hpath.mem_keys hdom x hx
    have hle : l.length ≤ (dictKeys fam.everybody).length := (hnd.subperm hsub).length_le
    omega
  refine ⟨⟨_, hterm⟩, ?_⟩
  refine ⟨(dictKeys fam.everybody).length + 2, ?_⟩
  have hiter : nextIter fam ((dictKeys fam.everybody).length + 1) [start] = [] := by
    rw [← generations_eq_nextIter]
    exact hterm
  have hhalts : ∀ (k : Nat) (gen : List AttrVal), nextIter fam k gen = [] →
      (emitLoop fam (k + 1) gen).2 ≠ RunExit.fuelOut := by
    intro k
    induction k with
    | zero =>
      intro gen hg
      have hg2 : gen = [] := hg
      subst hg2
      simp [emitLoop]
    | succ k ih =>
      intro gen hg
      cases gen with
      | nil => simp [emitLoop]
      | cons a rest =>
        rcases hd : display_generation fam (a :: rest) with ⟨o, e?⟩
        cases e? with
        | some m =>
          rw [emitLoop_cons_err hd]
          simp
        | none =>
          rw [emitLoop_cons_none hd]
          exact ih (next_generation fam (a :: rest)) hg
  have := hhalts ((dictKeys fam.everybody).length + 1) [start] hiter
  exact this

theorem childRel_elim {fam : Family} {a b : AttrVal} (h : childRel fam a b) :
    ∃ q, dictGet? fam.everybody a = some q ∧ b ∈ kidsThroughHouseholds fam q := by
  unfold childRel personOf at h
  cases hq : dictGet? fam.everybody a with
  | none =>
    rw [hq] at h
    simp [kidsThroughHouseholds, defaultPerson] at h
  | some q =>
    rw [hq] at h
    exact ⟨q, rfl, h⟩

theorem childRel_dom (fam : Family)
    (h : ∀ kv ∈ fam.everybody, ∀ b ∈ kidsThroughHouseholds fam kv.2,
        b ∈ dictKeys fam.everybody) :
    ∀ a b, childRel fam a b → b ∈ dictKeys fam.everybody := by
  intro a b hr
  obtain ⟨q, hq, hb⟩ := childRel_elim hr
  exact h (a, q) (mem_pairs_of_get hq) b hb

/-- Acyclicity of the parent-to-kid graph from a rank function that drops
along every registered kid edge — a decidable criterion on a concrete
registry. -/
theorem acyclic_of_rank (fam : Family) (rank : AttrVal → Nat)
    (h : ∀ kv ∈ fam.everybody, ∀ b ∈ kidsThroughHouseholds fam kv.2,
        rank b < rank kv.1) :
    ∀ a, ¬ Relation.TransGen (childRel fam) a a := by
  have hstep : ∀ a b, childRel fam a b → rank b < rank a := by
    intro a b hr
    obtain ⟨q, hq, hb⟩ := childRel_elim hr
    exact h (a, q) (mem_pairs_of_get hq) b hb
  have hmono : ∀ a b, Relation.TransGen (childRel fam) a b → rank b < rank a := by
    intro a b htr
    induction htr with
    | single h1 => exact hstep _ _ h1
    | tail h1 h2 ih => exact (hstep _ _ h2).trans ih
  intro a ha
  exact lt_irrefl _ (hmono a a ha)

theorem C9_witness :
    (∃ n, generations famW aIdv n = [])
    ∧ (∃ fuel, (output_descending_tree famW aIdv fuel).2 ≠ RunExit.fuelOut) :=
  C9_termination famW aIdv (childRel_dom famW (by decide))
    (acyclic_of_rank famW rankW (by decide))
